import Mathlib

/-!
# Verification of the video-to-ascii player engine and transition algorithms

Shallow embedding of `src/video_to_ascii/render_strategy/ascii_strategy.py`
(classes `AsciiStrategy`, `PlayerState`, `VideoPlayerEngine`) and of the
distance-smoothing component described by the specification.

Modelling conventions:
* Python strings are modelled as `String` (paths) or `List Char` (rendered text).
* A video capture at the engine level is identified by the path it was opened
  on (`Option String`); frame positions do not influence any state-machine
  observable, so they are not tracked there.  At the strategy level a capture
  is the list of frames still to be read (`cap.read()` pops the head).
* Pixel channel values are exact rationals (`ℚ`); `cv2`'s final `uint8`
  rounding/saturation is not modelled (the specification's own "within
  rounding" caveat).  The three colour channels obey identical equations, so a
  pixel is modelled by a single channel value.
* `cv2.resize` is an external library call; it is passed in as an explicit
  function parameter `CvResize` wherever the source calls it.
* Rendering side effects (ANSI escapes, `time.sleep`) have no bearing on the
  claims; a transition's rendered composites are collected in a list.
-/

/-- `PlayerState` (source lines 575-579): `IDLE`, `TRANSITIONING`, `PLAYING`. -/
inductive PState
  | idle
  | transitioning
  | playing
deriving DecidableEq, Repr

/-- Transition algorithm tag accepted by `VideoPlayerEngine.start`
(`'crossfade' | 'wipe' | 'scan'`). -/
inductive TType
  | crossfade
  | wipe
  | scan
deriving DecidableEq, Repr

/-- Wipe/scan direction (`'top' | 'bottom' | 'left' | 'right'`). -/
inductive Dir
  | top
  | bottom
  | left
  | right
deriving DecidableEq, Repr

/-- Environment: which paths `cv2.VideoCapture` opens successfully
(`cap.isOpened()`). -/
structure Env where
  opens : String → Bool

/-- State of `VideoPlayerEngine` (source lines 582-600 plus the
`transition_type` / `transition_direction` fields set by `start`).
`queue` holds `some path` for `add_video` requests and `none` for the
return-to-idle sentinel (`return_to_idle` puts `None`).  `idle_cap` is the
local capture opened by `_play_idle`; `current_cap` / `current_video_path`
mirror the fields of the same names. `transition_frames` is the strategy's
transition budget (source line 30, default 15). -/
structure Engine where
  state : PState
  queue : List (Option String)
  idle_cap : Option String
  current_cap : Option String
  current_video_path : Option String
  idle_video_path : String
  transition_type : TType
  transition_direction : Dir
  transition_frames : Nat
  is_running : Bool
deriving DecidableEq, Repr

/-- `VideoPlayerEngine.__init__` followed by the initialisation in `start`
(source lines 585-600 and 618-633): state `IDLE`, empty queue, no captures,
`is_running = True`. -/
def initEngine (idle : String) (tt : TType) (td : Dir) (tf : Nat) : Engine :=
  { state := .idle
    queue := []
    idle_cap := none
    current_cap := none
    current_video_path := none
    idle_video_path := idle
    transition_type := tt
    transition_direction := td
    transition_frames := tf
    is_running := true }

/-- `VideoPlayerEngine.add_video` (source lines 602-609): unconditionally
enqueue the path. -/
def add_video (e : Engine) (p : String) : Engine :=
  { e with queue := e.queue ++ [some p] }

/-- `VideoPlayerEngine.return_to_idle` (source lines 611-616): enqueue the
`None` sentinel, but only when the state is `PLAYING`. -/
def return_to_idle (e : Engine) : Engine :=
  if e.state = .playing then { e with queue := e.queue ++ [none] } else e

/-- `VideoPlayerEngine.stop` (source lines 934-943): clear `is_running`; the
capture is released but the `current_cap` attribute is not set to `None`. -/
def stop_engine (e : Engine) : Engine :=
  { e with is_running := false }

/-- `VideoPlayerEngine._transition_back_to_idle` (source lines 900-932).
Open the idle capture; on failure release the current capture, clear both
current fields and go `IDLE`; on success run the return transition
(direction `return_direction`), release the current capture, clear both
current fields and go `IDLE`.  Both branches leave the same engine fields. -/
def transition_back_to_idle (env : Env) (e : Engine) : Engine :=
  if env.opens e.idle_video_path then
    { e with current_cap := none, current_video_path := none, state := .idle }
  else
    { e with current_cap := none, current_video_path := none, state := .idle }

/-- The `return_direction` computed inside `_transition_back_to_idle`
(source line 918): `'bottom' if self.transition_direction == 'top' else 'top'`. -/
def return_direction (d : Dir) : Dir :=
  if d = .top then .bottom else .top

/-- Modelled from the spec: the direction "opposite to the original entry
direction" (spec section 4.3), i.e. top↔bottom and left↔right.  Stated here
only to be compared with the source's `return_direction`. -/
def oppositeDirectionSpec (d : Dir) : Dir :=
  match d with
  | .top => .bottom
  | .bottom => .top
  | .left => .right
  | .right => .left

/-- `VideoPlayerEngine._transition_to_next_video` (source lines 871-898):
open the new capture; on failure just drop the request (stay `PLAYING` on the
old capture); on success run the transition, release the old capture and
switch `current_cap` / `current_video_path` to the new video. -/
def transition_to_next_video (env : Env) (e : Engine) (p : String) : Engine :=
  if env.opens p then
    { e with current_cap := some p, current_video_path := some p }
  else
    e

/-- `VideoPlayerEngine._transition_to_video` (source lines 694-721): open the
destination; on failure fall back to `IDLE` (current fields untouched); on
success run the transition, then enter `PLAYING` with the destination as the
current capture and path. -/
def transition_to_video (env : Env) (e : Engine) (p : String) : Engine :=
  if env.opens p then
    { e with state := .playing, current_cap := some p, current_video_path := some p }
  else
    { e with state := .idle }

/-- One iteration of `_play_idle`'s inner loop (source lines 659-691), with
the idle capture open.  A non-empty queue sets `TRANSITIONING`, dequeues the
next request and runs `_transition_to_video`, after which the idle capture is
released; dequeuing the sentinel while idle is unreachable in the source
(`return_to_idle` only enqueues it while `PLAYING`); `cv2.VideoCapture(None)`
cannot open, so it is modelled as the open-failure path.  An empty queue
reads and renders one idle frame (seeking back to frame 0 at end of stream),
which changes no state-machine observable. -/
def play_idle_iter (env : Env) (e : Engine) : Engine :=
  match e.queue with
  | r :: rest =>
    let e1 := { e with state := .transitioning, queue := rest }
    match r with
    | some p =>
      let e2 := transition_to_video env e1 p
      { e2 with idle_cap := none }
    | none =>
      { e1 with state := .idle, idle_cap := none }
  | [] => e

/-- One step of the engine's render loop: one iteration of the dispatcher in
`start` (source lines 635-640) together with one iteration of the inner loop
of `_play_idle` (lines 642-692) or `_play_queued_video` (lines 723-773).
`_play_idle` opens its local capture on entry (error and return when the idle
video cannot be opened, leaving the state unchanged).  While `PLAYING`, a
dequeued sentinel runs `_transition_back_to_idle`, a dequeued path runs
`_transition_to_next_video`, and an empty queue reads and renders one frame
(running `_loop_current_video`, which reseeks the same capture, at end of
stream — no state-machine observable changes).  A state of `TRANSITIONING`
matches neither dispatcher branch, so the dispatcher loops without effect. -/
def step (env : Env) (e : Engine) : Engine :=
  if e.is_running then
    match e.state with
    | .idle =>
      match e.idle_cap with
      | some _ => play_idle_iter env e
      | none =>
        if env.opens e.idle_video_path then
          play_idle_iter env { e with idle_cap := some e.idle_video_path }
        else
          e
    | .transitioning => e
    | .playing =>
      match e.current_cap with
      | none => { e with state := .idle }
      | some _ =>
        match e.queue with
        | r :: rest =>
          match r with
          | none => transition_back_to_idle env { e with queue := rest }
          | some p => transition_to_next_video env { e with queue := rest } p
        | [] => e
  else
    e

/-- External interactions with a running engine: a render-loop step, the two
request-queue producers, and `stop`. -/
inductive Op
  | step
  | add (p : String)
  | retIdle
  | halt

/-- Apply one external interaction. -/
def applyOp (env : Env) : Op → Engine → Engine
  | .step, e => step env e
  | .add p, e => add_video e p
  | .retIdle, e => return_to_idle e
  | .halt, e => stop_engine e

/-- Run a sequence of interactions from a given engine state. -/
def runOps (env : Env) (ops : List Op) (e : Engine) : Engine :=
  ops.foldl (fun e o => applyOp env o e) e

/-- Fixture for witnesses: an environment where every path opens. -/
def envAll : Env := ⟨fun _ => true⟩

/-- Fixture for witnesses: an environment where no path opens. -/
def envNone : Env := ⟨fun _ => false⟩

/-- Fixture for witnesses: an environment where only the idle video opens. -/
def envIdleOnly : Env := ⟨fun s => s == "idle.mp4"⟩

/-- Fixture for witnesses: an engine `PLAYING` a queued video. -/
def egPlaying : Engine :=
  { state := .playing
    queue := []
    idle_cap := none
    current_cap := some "clipA.mp4"
    current_video_path := some "clipA.mp4"
    idle_video_path := "idle.mp4"
    transition_type := .wipe
    transition_direction := .top
    transition_frames := 15
    is_running := true }

/-- One row of pixel channel values (exact rationals; the three colour
channels obey identical equations). -/
abbrev Row := List ℚ

/-- A frame: a list of rows. -/
abbrev Frame := List Row

/-- The external `cv2.resize(frame, (width, height))`, passed in explicitly
wherever the source calls it. -/
abbrev CvResize := Frame → Nat × Nat → Frame

/-- Shape `(rows, cols)` of a frame (`frame.shape[:2]`). -/
def frameShape (f : Frame) : Nat × Nat :=
  (f.length, (f.headD []).length)

/-- The frame has exactly `h` rows, each of width `w`. -/
def uniformShape (f : Frame) (h w : Nat) : Prop :=
  f.length = h ∧ ∀ r ∈ f, r.length = w

instance (f : Frame) (h w : Nat) : Decidable (uniformShape f h w) :=
  inferInstanceAs (Decidable (f.length = h ∧ ∀ r ∈ f, r.length = w))

/-- `cv2.addWeighted(src1, a, src2, b, gamma)`: per-pixel
`a * x + b * y + gamma`, over exact rationals (the final `uint8`
rounding/saturation of the library is not modelled). -/
def addWeighted (f1 : Frame) (a : ℚ) (f2 : Frame) (b : ℚ) (g : ℚ) : Frame :=
  List.zipWith (fun r1 r2 => List.zipWith (fun x y => a * x + b * y + g) r1 r2) f1 f2

/-- `AsciiStrategy.blend_frames` (source lines 34-49): resize `frame2` to
`frame1`'s shape if the shapes differ, then
`cv2.addWeighted(frame1, 1 - alpha, frame2, alpha, 0)`. -/
def blend_frames (cv : CvResize) (f1 f2 : Frame) (alpha : ℚ) : Frame :=
  let f2r := if frameShape f1 ≠ frameShape f2 then
    cv f2 ((frameShape f1).2, (frameShape f1).1) else f2
  addWeighted f1 (1 - alpha) f2r alpha 0

/-- `AsciiStrategy.resize_frame` (source lines 550-572): derive the reduction
factor from the terminal row budget and scale both dimensions (`int()`
truncation), then call `cv2.resize`. -/
def resize_frame (cv : CvResize) (f : Frame) (dims : Nat × Nat) : Frame :=
  let height := f.length
  let width := (f.headD []).length
  let rows := dims.2
  let reduction_factor : ℚ := (rows : ℚ) / (height : ℚ) * 100
  let reduced_width := (⌊(width : ℚ) * reduction_factor / 100⌋).toNat
  let reduced_height := (⌊(height : ℚ) * reduction_factor / 100⌋).toNat
  cv f (reduced_width, reduced_height)

/-- Loop of `AsciiStrategy.crossfade_transition` (source lines 51-96).  `i`
is the Python loop index (`alpha = i / self.transition_frames`), `fuel` the
remaining iterations (the loop runs `transition_frames` times).  Each
iteration reads one frame from each capture; if the outgoing capture is
exhausted the function returns the incoming frame when available (`None`
when both are exhausted); if the incoming capture is exhausted it returns
the outgoing frame; otherwise it renders the blended composite.  After the
full loop it returns the last frame read from the incoming capture (with a
zero budget that variable was never assigned and the source would raise
`NameError`; modelled as `none`).  Returns the rendered composites and the
return value. -/
def crossfade_go (cv : CvResize) (b : Nat) : Nat → Nat → List Frame → List Frame →
    Option Frame → List Frame × Option Frame
  | _, 0, _, _, last2 => ([], last2)
  | i, fuel + 1, cap1, cap2, _ =>
    match cap1, cap2 with
    | [], f2 :: _ => ([], some f2)
    | [], [] => ([], none)
    | f1 :: _, [] => ([], some f1)
    | f1 :: c1, f2 :: c2 =>
      let blended := blend_frames cv f1 f2 ((i : ℚ) / (b : ℚ))
      let rest := crossfade_go cv b (i + 1) fuel c1 c2 (some f2)
      (blended :: rest.1, rest.2)

/-- `AsciiStrategy.crossfade_transition` (source lines 51-96), rendering to
the terminal (`output=None`). -/
def crossfade_transition (cv : CvResize) (b : Nat) (cap1 cap2 : List Frame) :
    List Frame × Option Frame :=
  crossfade_go cv b 0 b cap1 cap2 none

/-- The per-step composite of `AsciiStrategy.wipe_transition` (source lines
139-161), built from the two resized frames: copy the outgoing frame and
overwrite the swept slice with the incoming frame.  `int()` truncation of the
non-negative boundary is `Int.floor` followed by `toNat`. -/
def wipeComposite (dir : Dir) (rf1 rf2 : Frame) (progress : ℚ) : Frame :=
  let h := rf1.length
  let w := (rf1.headD []).length
  match dir with
  | .top =>
    let wipe_line := (⌊(h : ℚ) * progress⌋).toNat
    if 0 < wipe_line then rf2.take wipe_line ++ rf1.drop wipe_line else rf1
  | .bottom =>
    let wipe_line := (⌊(h : ℚ) * (1 - progress)⌋).toNat
    if wipe_line < h then rf1.take wipe_line ++ rf2.drop wipe_line else rf1
  | .left =>
    let wipe_col := (⌊(w : ℚ) * progress⌋).toNat
    if 0 < wipe_col then
      List.zipWith (fun r1 r2 => r2.take wipe_col ++ r1.drop wipe_col) rf1 rf2
    else rf1
  | .right =>
    let wipe_col := (⌊(w : ℚ) * (1 - progress)⌋).toNat
    if wipe_col < w then
      List.zipWith (fun r1 r2 => r1.take wipe_col ++ r2.drop wipe_col) rf1 rf2
    else rf1

/-- The pixel at row `j`, column `i` of a frame (`none` when out of range). -/
def pixelAt (f : Frame) (j i : Nat) : Option ℚ :=
  f[j]?.bind (fun r => r[i]?)

/-- The wipe boundary position as stated by the spec (section 4.2):
`floor(dimension × progress)` for directions top/left and
`floor(dimension × (1 - progress))` for bottom/right — the same formula as
the source's `wipe_line` / `wipe_col`. -/
def wipeBoundary (dir : Dir) (h w : Nat) (progress : ℚ) : Nat :=
  match dir with
  | .top => (⌊(h : ℚ) * progress⌋).toNat
  | .bottom => (⌊(h : ℚ) * (1 - progress)⌋).toNat
  | .left => (⌊(w : ℚ) * progress⌋).toNat
  | .right => (⌊(w : ℚ) * (1 - progress)⌋).toNat

/-- Whether pixel `(j, i)` lies on the already-swept side of the boundary
(spec: top sweeps downward, bottom upward, left rightward, right leftward). -/
def wipeSwept (dir : Dir) (h w : Nat) (progress : ℚ) (j i : Nat) : Bool :=
  match dir with
  | .top => decide (j < wipeBoundary dir h w progress)
  | .bottom => decide (wipeBoundary dir h w progress ≤ j)
  | .left => decide (i < wipeBoundary dir h w progress)
  | .right => decide (wipeBoundary dir h w progress ≤ i)

/-- Loop of `AsciiStrategy.wipe_transition` (source lines 98-174): same
read/early-return discipline as the crossfade loop; each surviving iteration
resizes both frames (re-resizing the incoming one on a shape mismatch) and
renders the wipe composite at `progress = i / transition_frames`.  After the
full loop the source returns the last resized incoming frame. -/
def wipe_go (cv : CvResize) (dims : Nat × Nat) (dir : Dir) (b : Nat) :
    Nat → Nat → List Frame → List Frame → Option Frame → List Frame × Option Frame
  | _, 0, _, _, last2 => ([], last2)
  | i, fuel + 1, cap1, cap2, _ =>
    match cap1, cap2 with
    | [], f2 :: _ => ([], some f2)
    | [], [] => ([], none)
    | f1 :: _, [] => ([], some f1)
    | f1 :: c1, f2 :: c2 =>
      let progress : ℚ := (i : ℚ) / (b : ℚ)
      let rf1 := resize_frame cv f1 dims
      let rf2 := resize_frame cv f2 dims
      let rf2 := if frameShape rf2 ≠ frameShape rf1 then
        cv rf2 ((frameShape rf1).2, (frameShape rf1).1) else rf2
      let comp := wipeComposite dir rf1 rf2 progress
      let rest := wipe_go cv dims dir b (i + 1) fuel c1 c2 (some rf2)
      (comp :: rest.1, rest.2)

/-- `AsciiStrategy.wipe_transition` (source lines 98-174), rendering to the
terminal (`output=None`). -/
def wipe_transition (cv : CvResize) (b : Nat) (dims : Nat × Nat) (dir : Dir)
    (cap1 cap2 : List Frame) : List Frame × Option Frame :=
  wipe_go cv dims dir b 0 b cap1 cap2 none

/-- `cv2.addWeighted(row1, 0.5, row2, 0.5, 50)`: the 50/50 brightness blend
with additive boost used on the scan line (source lines 243-246). -/
def brightRow (r1 r2 : Row) : Row :=
  List.zipWith (fun x y => (1 / 2 : ℚ) * x + (1 / 2 : ℚ) * y + 50) r1 r2

/-- Overwrite row `pos` of the composite with the scan-line blend of that row
and the incoming frame's row (`composite[line_pos, :] = cv2.addWeighted(...)`). -/
def blendScanRow (comp rf2 : Frame) (pos : Nat) : Frame :=
  comp.set pos (brightRow (comp.getD pos []) (rf2.getD pos []))

/-- `lines_per_frame = max(1, int(total_lines / self.transition_frames))`
(source line 213): how many rows the scan cursor advances per emitted frame. -/
def scan_lines_per_frame (total_lines tf : Nat) : Nat :=
  max 1 (total_lines / tf)

/-- The per-frame composite of `AsciiStrategy.scan_transition` for direction
`'top'` (source lines 232-246): replace rows `[0, end_line)` with the
incoming frame, where `end_line = min(current_line + scan_speed, total)`;
when `end_line < total`, brighten the two rows at positions
`min(end_line + offset, total - 1)` for `offset = 0, 1` (sequentially, so at
the bottom edge the same row can be blended twice). -/
def scanCompositeTop (rf1 rf2 : Frame) (current_line scan_speed : Nat) : Frame :=
  let total_lines := rf1.length
  let end_line := min (current_line + scan_speed) total_lines
  let composite := rf2.take end_line ++ rf1.drop end_line
  if end_line < total_lines then
    let c1 := blendScanRow composite rf2 (min end_line (total_lines - 1))
    blendScanRow c1 rf2 (min (end_line + 1) (total_lines - 1))
  else composite

/-- The per-frame composite of `AsciiStrategy.scan_transition` for the
non-`'top'` (bottom) branch (source lines 247-260): replace rows
`[start_line, total)` with the incoming frame, where
`start_line = max(total - current_line - scan_speed, 0)`; when
`start_line > 0`, brighten the rows at `max(start_line - offset, 0)` for
`offset = 0, 1`. -/
def scanCompositeBottom (rf1 rf2 : Frame) (current_line scan_speed : Nat) : Frame :=
  let total_lines := rf1.length
  let start_line := total_lines - current_line - scan_speed
  let composite := rf1.take start_line ++ rf2.drop start_line
  if 0 < start_line then
    let c1 := blendScanRow composite rf2 start_line
    blendScanRow c1 rf2 (start_line - 1)
  else composite

/-- Composite dispatch of `scan_transition`: `if direction == 'top': ...
else: ...` (any non-top direction takes the bottom branch). -/
def scanComposite (dir : Dir) (rf1 rf2 : Frame) (current_line scan_speed : Nat) : Frame :=
  match dir with
  | .top => scanCompositeTop rf1 rf2 current_line scan_speed
  | _ => scanCompositeBottom rf1 rf2 current_line scan_speed

/-- Loop of `AsciiStrategy.scan_transition` (source lines 217-273): while the
cursor has not passed the last row, read one frame from each capture (keeping
the previous resized frame when a capture is exhausted, and re-resizing the
incoming frame on a shape mismatch against the initial `(h, w)`), render the
scan composite at the current cursor, and advance the cursor by
`lines_per_frame`.  The emitted list records `(cursor, composite)` pairs; the
cursor component is ghost instrumentation for the specification.  The first
argument is recursion fuel: the cursor strictly increases each iteration
(`lines_per_frame ≥ 1`), so the loop runs at most `h` times from cursor 0 and
`scan_transition` passes fuel `h`, which is never exhausted.  Returns the
emitted frames and the final `resized_frame2`. -/
def scan_go (cv : CvResize) (dims : Nat × Nat) (dir : Dir) (s h w tf : Nat) :
    Nat → Nat → List Frame → List Frame → Frame → Frame → List (Nat × Frame) × Frame
  | 0, _, _, _, _, rf2 => ([], rf2)
  | fuel + 1, current, cap1, cap2, rf1, rf2 =>
    if current < h then
      let st1 := match cap1 with
        | f :: r => (r, resize_frame cv f dims)
        | [] => (([] : List Frame), rf1)
      let st2 := match cap2 with
        | f :: r =>
          let rf := resize_frame cv f dims
          (r, if frameShape rf ≠ (h, w) then cv rf (w, h) else rf)
        | [] => (([] : List Frame), rf2)
      let comp := scanComposite dir st1.2 st2.2 current s
      let rest := scan_go cv dims dir s h w tf fuel (current + scan_lines_per_frame h tf)
        st1.1 st2.1 st1.2 st2.2
      ((current, comp) :: rest.1, rest.2)
    else ([], rf2)

/-- `AsciiStrategy.scan_transition` (source lines 176-275), rendering to the
terminal (`output=None`): read the initial frame pair (early return when
either capture is empty), resize both (fixing a shape mismatch), take
`(h, w)` from the resized outgoing frame, then run the scan loop from
cursor 0. -/
def scan_transition (cv : CvResize) (tf : Nat) (dims : Nat × Nat) (dir : Dir)
    (s : Nat) (cap1 cap2 : List Frame) : List (Nat × Frame) × Option Frame :=
  match cap1, cap2 with
  | [], [] => ([], none)
  | [], f2 :: _ => ([], some f2)
  | f1 :: _, [] => ([], some f1)
  | f1 :: c1, f2 :: c2 =>
    let rf1 := resize_frame cv f1 dims
    let rf2 := resize_frame cv f2 dims
    let hw := frameShape rf1
    let rf2 := if frameShape rf2 ≠ hw then cv rf2 (hw.2, hw.1) else rf2
    let r := scan_go cv dims dir s hw.1 hw.2 tf hw.1 0 c1 c2 rf1 rf2
    (r.1, some r.2)

/-- Modelled from the spec: `image_processor.pixel_to_ascii` is imported by
the strategy but its module is not under `src/`.  Spec section 4.1: each
sampled pixel maps through a fixed luminance/density lookup to one printable
glyph occupying two terminal character cells ("one character represents two
horizontal source pixels"; the strategy pads rows with
`cols - printing_width * 2` spaces, so each emitted cell is two characters
wide).  The lookup itself is an explicit parameter. -/
def pixel_to_ascii (lookup : ℚ → Char) (p : ℚ) : List Char :=
  [lookup p, lookup p]

/-- `AsciiStrategy.convert_frame_pixels_to_ascii` (source lines 315-354):
walk rows `0 .. h-2`, sampling `printing_width = min(cols, w*2) / 2` pixels
per row; append `"\n"` per row when `nl_chars` is set, else pad with
`max(cols - printing_width*2, 0)` spaces; terminate the whole block with
`"\r\n"`.  The Python `str` is modelled as `List Char`. -/
def convert_frame_pixels_to_ascii (lookup : ℚ → Char) (frame : Frame) (cols : Nat)
    (nl_chars : Bool) : List Char :=
  let h := frame.length
  let w := (frame.headD []).length
  let printing_width := min cols (w * 2) / 2
  let pad := cols - printing_width * 2
  (List.flatten ((frame.take (h - 1)).map (fun row =>
    List.flatten ((row.take printing_width).map (pixel_to_ascii lookup)) ++
      (if nl_chars then ['\n'] else List.replicate pad ' ')))) ++ ['\r', '\n']

/-- `distance.check_distance` (src/video_to_ascii/render_strategy/distance.py
lines 8-10) reads raw 4-byte float samples from the serial transport; the
smoothing layer that consumes them is not under `src/`.  Modelled from the
spec: DistanceSignal's validity filter and sliding window (spec sections 3,
4.4): a sample is rejected if non-positive or above the validity ceiling,
otherwise it is appended to the window, which keeps only the 10 most recent
valid samples. -/
def ingest_sample (ceiling : ℚ) (window : List ℚ) (s : ℚ) : List ℚ :=
  if s ≤ 0 ∨ ceiling < s then window
  else
    let wnd := window ++ [s]
    wnd.drop (wnd.length - 10)

/-- Modelled from the spec: the sampling loop folds the transport's samples
into the window, starting from an empty window. -/
def run_signal (ceiling : ℚ) (samples : List ℚ) : List ℚ :=
  samples.foldl (ingest_sample ceiling) []

/-- Modelled from the spec: the published smoothed value is the arithmetic
mean of the window contents. -/
def published_distance (window : List ℚ) : ℚ :=
  window.sum / window.length

/-- The last `n` elements of a list (specification helper). -/
def takeLast (n : Nat) (l : List α) : List α :=
  l.drop (l.length - n)

/-- Fixture for witnesses: the identity stand-in for `cv2.resize`. -/
def cvId : CvResize := fun f _ => f

/-- Fixture for witnesses: a 2×2 frame. -/
def frameA : Frame := [[10, 20], [30, 40]]

/-- Fixture for witnesses: a second 2×2 frame. -/
def frameB : Frame := [[50, 60], [70, 80]]

/-- Fixture for counterexamples/witnesses: a 4×1 frame. -/
def frame41 : Frame := [[0], [64], [128], [192]]

/-- Inductive invariant of the engine: while `IDLE` there is no current
capture and no current video path, and while `PLAYING` there always is a
current capture. -/
def EngineInv (e : Engine) : Prop :=
  (e.state = .idle → e.current_cap = none ∧ e.current_video_path = none) ∧
  (e.state = .playing → e.current_cap.isSome)

theorem engineInv_init (idle : String) (tt : TType) (td : Dir) (tf : Nat) :
    EngineInv (initEngine idle tt td tf) := by
  constructor
  · intro _; exact ⟨rfl, rfl⟩
  · intro h; simp [initEngine] at h

theorem engineInv_step (env : Env) (e : Engine) (h : EngineInv e) :
    EngineInv (step env e) := by
  obtain ⟨st, q, ic, cc, cvp, ivp, tt, td, tf, ir⟩ := e
  obtain ⟨h1, h2⟩ := h
  simp only [EngineInv] at h1 h2 ⊢
  cases ir <;> cases st <;> cases ic <;> rcases q with _ | ⟨_ | p, rest⟩ <;> cases cc <;>
    simp_all [step, play_idle_iter, transition_to_video, transition_to_next_video,
      transition_back_to_idle] <;>
    split_ifs <;>
    simp_all

theorem engineInv_applyOp (env : Env) (o : Op) (e : Engine) (h : EngineInv e) :
    EngineInv (applyOp env o e) := by
  cases o with
  | step => exact engineInv_step env e h
  | add p => exact h
  | retIdle =>
    simp only [applyOp, return_to_idle]
    split
    · exact h
    · exact h
  | halt => exact h

theorem engineInv_runOps (env : Env) (ops : List Op) (e : Engine) (h : EngineInv e) :
    EngineInv (runOps env ops e) := by
  induction ops generalizing e with
  | nil => exact h
  | cons o rest ih => exact ih _ (engineInv_applyOp env o e h)

/-- A running engine that is `PLAYING` on an open capture with an empty queue
is a fixed point of the render-loop step: it just keeps reading and rendering
frames of the current video (looping it at end of stream). -/
theorem step_playing_fixed (env : Env) (e : Engine) (hr : e.is_running = true)
    (hs : e.state = .playing) (c : String) (hc : e.current_cap = some c)
    (hq : e.queue = []) : step env e = e := by
  obtain ⟨st, q, ic, cc, cvp, ivp, tt, td, tf, ir⟩ := e
  simp only [Engine.is_running, Engine.state, Engine.current_cap, Engine.queue] at hr hs hc hq
  subst hr hs hc hq
  simp [step]

/-- The single render-loop step that consumes the only queued request from
`IDLE`: it opens the idle capture if necessary, dequeues the request, runs
`_transition_to_video` (which succeeds) and lands in `PLAYING` on the
requested video. -/
theorem step_idle_consumes_request (env : Env) (e : Engine) (p : String)
    (hr : e.is_running = true) (hs : e.state = .idle)
    (hidle : env.opens e.idle_video_path = true)
    (hq : e.queue = []) (hopen : env.opens p = true) :
    step env (add_video e p) =
      { e with state := .playing, queue := [], idle_cap := none,
               current_cap := some p, current_video_path := some p } := by
  obtain ⟨st, q, ic, cc, cvp, ivp, tt, td, tf, ir⟩ := e
  simp only [Engine.is_running, Engine.state, Engine.idle_video_path, Engine.queue]
    at hr hs hidle hq
  subst hr hs hq
  cases ic <;>
    simp [step, add_video, play_idle_iter, transition_to_video, hidle, hopen]

/-- C1. For every request identifier whose source opens successfully: if the
engine sits in its idle loop (state `Idle`, the idle source able to open) and
the identifier is enqueued, then stepping the engine `n` times with
`n ≥ transition_frames` (the transition budget, which is positive) lands in
`Playing` with `current_video_path` equal to the enqueued identifier.  In the
source the whole transition runs inside the step that dequeues the request
(`_play_idle` → `_transition_to_video`), so `Playing` is reached after the
very first step and is preserved by every later step. -/
theorem c1_idle_enqueue_reaches_playing (env : Env) (e : Engine) (p : String) (n : Nat)
    (hr : e.is_running = true) (hs : e.state = .idle)
    (hidle : env.opens e.idle_video_path = true)
    (hq : e.queue = []) (hopen : env.opens p = true)
    (htf : 0 < e.transition_frames) (hn : e.transition_frames ≤ n) :
    ((step env)^[n] (add_video e p)).state = .playing ∧
    ((step env)^[n] (add_video e p)).current_video_path = some p := by
  obtain ⟨m, rfl⟩ : ∃ m, n = m + 1 := ⟨n - 1, by omega⟩
  rw [Function.iterate_succ_apply, step_idle_consumes_request env e p hr hs hidle hq hopen]
  have hfix : step env
      { e with state := .playing, queue := [], idle_cap := none,
               current_cap := some p, current_video_path := some p } =
      { e with state := .playing, queue := [], idle_cap := none,
               current_cap := some p, current_video_path := some p } :=
    step_playing_fixed env _ hr rfl p rfl rfl
  rw [Function.iterate_fixed hfix m]
  exact ⟨rfl, rfl⟩

/-- C1 witness: a concrete engine with transition budget 15. -/
theorem c1_witness :
    (initEngine "idle.mp4" TType.wipe Dir.top 15).state = PState.idle ∧
    0 < (initEngine "idle.mp4" TType.wipe Dir.top 15).transition_frames ∧
    ((step envAll)^[15]
        (add_video (initEngine "idle.mp4" TType.wipe Dir.top 15) "clipA.mp4")).state =
      PState.playing ∧
    ((step envAll)^[15]
        (add_video (initEngine "idle.mp4" TType.wipe Dir.top 15) "clipA.mp4")).current_video_path =
      some "clipA.mp4" := by
  refine ⟨rfl, by decide, ?_⟩
  exact c1_idle_enqueue_reaches_playing envAll
    (initEngine "idle.mp4" TType.wipe Dir.top 15) "clipA.mp4" 15
    rfl rfl rfl rfl rfl (by decide) (by decide)

/-- Stepping a running engine that is `PLAYING` on an open capture and whose
queue contains the return-to-idle sentinel eventually reaches `IDLE` with no
current capture and no current video path.  Requests queued ahead of the
sentinel are consumed one per step (`_transition_to_next_video`, which keeps
the engine `PLAYING` on an open capture whether or not the new video opens);
the step that dequeues the sentinel runs `_transition_back_to_idle`, both of
whose branches clear `current_cap` and `current_video_path` and set `IDLE`. -/
theorem steps_reach_idle (env : Env) : ∀ (q : List (Option String)) (e : Engine),
    e.is_running = true → e.state = .playing → e.current_cap.isSome →
    e.queue = q → none ∈ q →
    ∃ n, ((step env)^[n] e).state = .idle ∧ ((step env)^[n] e).current_cap = none ∧
      ((step env)^[n] e).current_video_path = none := by
  intro q
  induction q with
  | nil =>
    intro e _ _ _ _ hmem
    simp at hmem
  | cons r rest ih =>
    intro e hr hs hc hq hmem
    cases r with
    | none =>
      refine ⟨1, ?_⟩
      rw [Function.iterate_one]
      obtain ⟨st, q', ic, cc, cvp, ivp, tt, td, tf, ir⟩ := e
      simp only [Engine.is_running, Engine.state, Engine.current_cap, Engine.queue]
        at hr hs hc hq
      subst hr hs hq
      cases cc with
      | none => simp at hc
      | some c =>
        simp only [step, transition_back_to_idle]
        split_ifs <;> simp
    | some p =>
      have hstep : (step env e).is_running = true ∧ (step env e).state = .playing ∧
          (step env e).current_cap.isSome ∧ (step env e).queue = rest := by
        obtain ⟨st, q', ic, cc, cvp, ivp, tt, td, tf, ir⟩ := e
        simp only [Engine.is_running, Engine.state, Engine.current_cap, Engine.queue]
          at hr hs hc hq
        subst hr hs hq
        cases cc with
        | none => simp at hc
        | some c =>
          simp only [step, transition_to_next_video]
          split_ifs <;> simp
      have hmem' : none ∈ rest := by
        rcases List.mem_cons.mp hmem with h | h
        · exact absurd h (by simp)
        · exact h
      obtain ⟨n, hn⟩ := ih (step env e) hstep.1 hstep.2.1 hstep.2.2.1 hstep.2.2.2 hmem'
      refine ⟨n + 1, ?_⟩
      rwa [Function.iterate_succ_apply]

/-- C2. From any state that is `Playing` on an open current capture (every
reachable `Playing` state is of this shape, by `EngineInv`), enqueueing the
return-to-idle sentinel via `return_to_idle` and continuing to step the
engine results in state `Idle` with `current_cap = None` and
`current_video_path = None` — regardless of how many frames have been played
(frame positions do not influence the state machine) and regardless of
whether the idle source reopens successfully or fails to open (`env` is
arbitrary; both branches of `_transition_back_to_idle` clear the fields). -/
theorem c2_sentinel_returns_to_idle (env : Env) (e : Engine)
    (hr : e.is_running = true) (hs : e.state = .playing)
    (hc : e.current_cap.isSome) :
    ∃ n, ((step env)^[n] (return_to_idle e)).state = .idle ∧
      ((step env)^[n] (return_to_idle e)).current_cap = none ∧
      ((step env)^[n] (return_to_idle e)).current_video_path = none := by
  have hret : return_to_idle e = { e with queue := e.queue ++ [none] } := by
    simp [return_to_idle, hs]
  refine steps_reach_idle env (e.queue ++ [none]) (return_to_idle e) ?_ ?_ ?_ ?_ ?_
  · rw [hret]; exact hr
  · rw [hret]; exact hs
  · rw [hret]; exact hc
  · rw [hret]
  · simp

/-- C2 witness: a `Playing` engine, in an environment where the idle source
fails to reopen (the open-failure branch of `_transition_back_to_idle`). -/
theorem c2_witness :
    egPlaying.state = PState.playing ∧ egPlaying.current_cap.isSome = true ∧
    ∃ n, ((step envNone)^[n] (return_to_idle egPlaying)).state = PState.idle ∧
      ((step envNone)^[n] (return_to_idle egPlaying)).current_cap = none ∧
      ((step envNone)^[n] (return_to_idle egPlaying)).current_video_path = none :=
  ⟨rfl, rfl, c2_sentinel_returns_to_idle envNone egPlaying rfl rfl rfl⟩

/-- C5 counterexample: the entry direction `left` returns with `top`
(`return_direction` is `'bottom' if direction == 'top' else 'top'`), not with
its opposite `right`. -/
theorem c5_counterexample :
    return_direction Dir.left ≠ oppositeDirectionSpec Dir.left := by
  decide

/-- C5 (amended). When the return-to-idle sentinel is dequeued while
`Playing`, the return transition uses direction `bottom` if the entry
direction was `top`, and `top` for every other entry direction: the
top↔bottom pair is opposite as claimed, but entry directions `left` and
`right` both return with `top`, not with their opposites. -/
theorem c5_return_direction_amended :
    return_direction Dir.top = Dir.bottom ∧
    return_direction Dir.bottom = Dir.top ∧
    return_direction Dir.left = Dir.top ∧
    return_direction Dir.right = Dir.top := by
  decide

/-- C10. In every reachable engine state (any interleaving of render-loop
steps, `add_video`, `return_to_idle` and `stop` from the initial state) with
state `Idle` — including the initial state and the state after a failed open
of a requested destination — `current_cap` is `None` and
`current_video_path` is `None`. -/
theorem c10_idle_has_no_capture (env : Env) (idle : String) (tt : TType) (td : Dir)
    (tf : Nat) (ops : List Op)
    (h : (runOps env ops (initEngine idle tt td tf)).state = .idle) :
    (runOps env ops (initEngine idle tt td tf)).current_cap = none ∧
    (runOps env ops (initEngine idle tt td tf)).current_video_path = none :=
  (engineInv_runOps env ops _ (engineInv_init idle tt td tf)).1 h

/-- C10 witness: enqueue a video that fails to open; the engine dequeues it,
`_transition_to_video` fails, and the engine is back in `Idle` with no
capture. -/
theorem c10_witness :
    (runOps envIdleOnly [Op.add "clipA.mp4", Op.step]
        (initEngine "idle.mp4" TType.wipe Dir.top 15)).state = PState.idle ∧
    (runOps envIdleOnly [Op.add "clipA.mp4", Op.step]
        (initEngine "idle.mp4" TType.wipe Dir.top 15)).current_cap = none ∧
    (runOps envIdleOnly [Op.add "clipA.mp4", Op.step]
        (initEngine "idle.mp4" TType.wipe Dir.top 15)).current_video_path = none := by
  refine ⟨by decide, c10_idle_has_no_capture _ _ _ _ _ _ (by decide)⟩

theorem takeLast_takeLast {α : Type} (m n : Nat) (l : List α) (h : m ≤ n) :
    takeLast m (takeLast n l) = takeLast m l := by
  unfold takeLast
  rw [List.drop_drop, List.length_drop]
  congr 1
  omega

theorem takeLast_append_one {α : Type} (n : Nat) (hn : 1 ≤ n) (l : List α) (x : α) :
    takeLast n (l ++ [x]) = takeLast (n - 1) l ++ [x] := by
  unfold takeLast
  have h1 : (l ++ [x]).length - n ≤ l.length := by simp; omega
  rw [List.drop_append_of_le_length h1]
  have h2 : (l ++ [x]).length - n = l.length - (n - 1) := by simp; omega
  rw [h2]

/-- Folding the sampling loop over a stream, starting from a window that
already holds the last 10 of some history, yields the last 10 valid samples
of the combined history. -/
theorem foldl_ingest_window (ceiling : ℚ) (samples : List ℚ) :
    ∀ w : List ℚ,
      samples.foldl (ingest_sample ceiling) (takeLast 10 w) =
        takeLast 10 (w ++ samples.filter (fun s => decide (0 < s ∧ s ≤ ceiling))) := by
  induction samples with
  | nil => intro w; simp
  | cons s rest ih =>
    intro w
    simp only [List.foldl_cons]
    by_cases hv : s ≤ 0 ∨ ceiling < s
    · have hing : ingest_sample ceiling (takeLast 10 w) s = takeLast 10 w := by
        simp [ingest_sample, hv]
      have hf : List.filter (fun s => decide (0 < s ∧ s ≤ ceiling)) (s :: rest) =
          List.filter (fun s => decide (0 < s ∧ s ≤ ceiling)) rest := by
        rw [List.filter_cons_of_neg]
        simp only [decide_eq_true_eq]
        rcases hv with hv | hv
        · intro hc; exact absurd hc.1 (by linarith)
        · intro hc; exact absurd hc.2 (by linarith)
      rw [hing, ih w, hf]
    · have hneg := hv
      push_neg at hv
      have hing : ingest_sample ceiling (takeLast 10 w) s = takeLast 10 (w ++ [s]) := by
        show (if s ≤ 0 ∨ ceiling < s then takeLast 10 w
          else takeLast 10 (takeLast 10 w ++ [s])) = takeLast 10 (w ++ [s])
        rw [if_neg hneg]
        rw [takeLast_append_one 10 (by omega) _ s, takeLast_append_one 10 (by omega) w s,
          takeLast_takeLast 9 10 w (by omega)]
      rw [hing, ih (w ++ [s]), List.filter_cons_of_pos (by simpa using hv)]
      rw [List.append_assoc]
      rfl

/-- C9.  For every stream of distance samples: non-positive and above-ceiling
samples are discarded before entering the smoothing window, the window holds
exactly the (at most) 10 most recent valid samples, and the published value
is the arithmetic mean (sum divided by size) of the window contents.
The validity filter, window and mean are modelled from the spec (sections 3
and 4.4): only the raw transport read `distance.check_distance` is under
`src/`. -/
theorem c9_distance_window (ceiling : ℚ) (samples : List ℚ) :
    run_signal ceiling samples =
      takeLast 10 (samples.filter (fun s => decide (0 < s ∧ s ≤ ceiling))) ∧
    (run_signal ceiling samples).length ≤ 10 ∧
    (∀ x ∈ run_signal ceiling samples, 0 < x ∧ x ≤ ceiling) ∧
    published_distance (run_signal ceiling samples) =
      (run_signal ceiling samples).sum / ((run_signal ceiling samples).length : ℚ) := by
  have h0 : run_signal ceiling samples =
      takeLast 10 (samples.filter (fun s => decide (0 < s ∧ s ≤ ceiling))) := by
    have h := foldl_ingest_window ceiling samples []
    simpa [run_signal, takeLast] using h
  refine ⟨h0, ?_, ?_, rfl⟩
  · rw [h0]
    unfold takeLast
    rw [List.length_drop]
    omega
  · intro x hx
    rw [h0] at hx
    unfold takeLast at hx
    have hx' : x ∈ samples.filter (fun s => decide (0 < s ∧ s ≤ ceiling)) :=
      List.drop_subset _ _ hx
    have := List.of_mem_filter hx'
    simpa using this

theorem frameShape_eq_of_uniform (f1 f2 : Frame) (h w : Nat)
    (h1 : uniformShape f1 h w) (h2 : uniformShape f2 h w) :
    frameShape f1 = frameShape f2 := by
  obtain ⟨hl1, hw1⟩ := h1
  obtain ⟨hl2, hw2⟩ := h2
  cases f1 with
  | nil =>
    cases f2 with
    | nil => rfl
    | cons r t =>
      simp only [List.length_nil] at hl1
      simp only [List.length_cons] at hl2
      omega
  | cons r1 t1 =>
    cases f2 with
    | nil =>
      simp only [List.length_nil] at hl2
      simp only [List.length_cons] at hl1
      omega
    | cons r2 t2 =>
      simp only [frameShape, List.headD_cons, List.length_cons, Prod.mk.injEq]
      constructor
      · simp only [List.length_cons] at hl1 hl2; omega
      · rw [hw1 r1 (by simp), hw2 r2 (by simp)]

theorem rowLengths_of_uniform (f1 f2 : Frame) (w : Nat)
    (hl : f1.length = f2.length)
    (h1 : ∀ r ∈ f1, r.length = w) (h2 : ∀ r ∈ f2, r.length = w) :
    List.Forall₂ (fun r1 r2 => List.length r1 = List.length r2) f1 f2 := by
  induction f1 generalizing f2 with
  | nil =>
    cases f2 with
    | nil => exact List.Forall₂.nil
    | cons r t => simp at hl
  | cons r1 t1 ih =>
    cases f2 with
    | nil => simp at hl
    | cons r2 t2 =>
      refine List.Forall₂.cons ?_ ?_
      · rw [h1 r1 (by simp), h2 r2 (by simp)]
      · exact ih t2 (by simpa using hl)
          (fun r hr => h1 r (by simp [hr])) (fun r hr => h2 r (by simp [hr]))

theorem zipWith_fst_of_le (r1 r2 : Row) (h : r1.length ≤ r2.length) :
    List.zipWith (fun x _ => x) r1 r2 = r1 := by
  induction r1 generalizing r2 with
  | nil => simp
  | cons a t ih =>
    cases r2 with
    | nil => simp at h
    | cons b t2 =>
      simp only [List.length_cons] at h
      simp [ih t2 (by omega)]

theorem zipWith_snd_of_le (r1 r2 : Row) (h : r2.length ≤ r1.length) :
    List.zipWith (fun _ y => y) r1 r2 = r2 := by
  induction r1 generalizing r2 with
  | nil =>
    cases r2 with
    | nil => simp
    | cons b t2 => simp at h
  | cons a t ih =>
    cases r2 with
    | nil => simp
    | cons b t2 =>
      simp only [List.length_cons] at h
      simp [ih t2 (by omega)]

theorem addWeighted_proj_left (f1 f2 : Frame)
    (h : List.Forall₂ (fun r1 r2 => List.length r1 = List.length r2) f1 f2) :
    addWeighted f1 1 f2 0 0 = f1 := by
  induction h with
  | nil => rfl
  | @cons r1 r2 t1 t2 hr _ ih =>
    simp only [addWeighted, List.zipWith_cons_cons, one_mul, zero_mul, add_zero] at ih ⊢
    rw [zipWith_fst_of_le r1 r2 (le_of_eq hr), ih]

theorem addWeighted_proj_right (f1 f2 : Frame)
    (h : List.Forall₂ (fun r1 r2 => List.length r1 = List.length r2) f1 f2) :
    addWeighted f1 0 f2 1 0 = f2 := by
  induction h with
  | nil => rfl
  | @cons r1 r2 t1 t2 hr _ ih =>
    simp only [addWeighted, List.zipWith_cons_cons, one_mul, zero_mul, add_zero,
      zero_add] at ih ⊢
    rw [zipWith_snd_of_le r1 r2 (le_of_eq hr.symm), ih]

theorem blend_frames_same_shape (cv : CvResize) (f1 f2 : Frame) (h w : Nat)
    (h1 : uniformShape f1 h w) (h2 : uniformShape f2 h w) (a : ℚ) :
    blend_frames cv f1 f2 a = addWeighted f1 (1 - a) f2 a 0 := by
  have hs := frameShape_eq_of_uniform f1 f2 h w h1 h2
  simp [blend_frames, hs]

theorem addWeighted_lerp (f1 f2 : Frame) (a : ℚ) :
    addWeighted f1 (1 - a) f2 a 0 =
      List.zipWith (fun r1 r2 =>
        List.zipWith (fun x y => (1 - a) * x + a * y) r1 r2) f1 f2 := by
  unfold addWeighted
  congr 1
  funext r1 r2
  congr 1
  funext x y
  ring

/-- Emission of the crossfade loop: if neither capture is exhausted before
position `k` (and the fuel allows it), the `k`-th rendered composite is the
blend of the `k`-th frames at `alpha = (start index + k) / budget`. -/
theorem crossfade_go_emit (cv : CvResize) (b : Nat) :
    ∀ (k i fuel : Nat) (cap1 cap2 : List Frame) (last : Option Frame) (f1 f2 : Frame),
      k < fuel → cap1[k]? = some f1 → cap2[k]? = some f2 →
      (crossfade_go cv b i fuel cap1 cap2 last).1[k]? =
        some (blend_frames cv f1 f2 (((i + k : Nat) : ℚ) / (b : ℚ))) := by
  intro k
  induction k with
  | zero =>
    intro i fuel cap1 cap2 last f1 f2 hk h1 h2
    obtain ⟨fuel, rfl⟩ : ∃ m, fuel = m + 1 := ⟨fuel - 1, by omega⟩
    cases cap1 with
    | nil => simp at h1
    | cons g1 c1 =>
      cases cap2 with
      | nil => simp at h2
      | cons g2 c2 =>
        simp only [List.getElem?_cons_zero, Option.some.injEq] at h1 h2
        subst h1 h2
        simp [crossfade_go]
  | succ k ih =>
    intro i fuel cap1 cap2 last f1 f2 hk h1 h2
    obtain ⟨fuel, rfl⟩ : ∃ m, fuel = m + 1 := ⟨fuel - 1, by omega⟩
    cases cap1 with
    | nil => simp at h1
    | cons g1 c1 =>
      cases cap2 with
      | nil => simp at h2
      | cons g2 c2 =>
        simp only [List.getElem?_cons_succ] at h1 h2
        have h3 := ih (i + 1) fuel c1 c2 (some g2) f1 f2 (by omega) h1 h2
        rw [show (i + 1) + k = i + (k + 1) from by omega] at h3
        simp only [crossfade_go, List.getElem?_cons_succ]
        exact h3

/-- C6.  For every pair of same-shaped frames and every budget `b`: the
crossfade composite at step `i < b` uses `alpha = i / b` and is
`blend_frames` of the two step-`i` frames; `blend_frames` on same-shaped
frames is exactly the per-pixel linear interpolation
`frame1 * (1 - alpha) + frame2 * alpha`; at `alpha = 0` it reproduces the
outgoing frame exactly and at `alpha = 1` the incoming frame exactly
(channel values are exact rationals, so no rounding is involved). -/
theorem c6_crossfade_blend_lerp :
    (∀ (cv : CvResize) (b : Nat) (cap1 cap2 : List Frame) (i : Nat) (f1 f2 : Frame),
      i < b → cap1[i]? = some f1 → cap2[i]? = some f2 →
      (crossfade_transition cv b cap1 cap2).1[i]? =
        some (blend_frames cv f1 f2 ((i : ℚ) / (b : ℚ)))) ∧
    (∀ (cv : CvResize) (f1 f2 : Frame) (h w : Nat) (a : ℚ),
      uniformShape f1 h w → uniformShape f2 h w →
      blend_frames cv f1 f2 a =
        List.zipWith (fun r1 r2 =>
          List.zipWith (fun x y => (1 - a) * x + a * y) r1 r2) f1 f2) ∧
    (∀ (cv : CvResize) (f1 f2 : Frame) (h w : Nat),
      uniformShape f1 h w → uniformShape f2 h w → blend_frames cv f1 f2 0 = f1) ∧
    (∀ (cv : CvResize) (f1 f2 : Frame) (h w : Nat),
      uniformShape f1 h w → uniformShape f2 h w → blend_frames cv f1 f2 1 = f2) := by
  refine ⟨?_, ?_, ?_, ?_⟩
  · intro cv b cap1 cap2 i f1 f2 hi h1 h2
    have h := crossfade_go_emit cv b i 0 b cap1 cap2 none f1 f2 hi h1 h2
    simpa [crossfade_transition] using h
  · intro cv f1 f2 h w a h1 h2
    rw [blend_frames_same_shape cv f1 f2 h w h1 h2 a, addWeighted_lerp]
  · intro cv f1 f2 h w h1 h2
    rw [blend_frames_same_shape cv f1 f2 h w h1 h2 0]
    have hF := rowLengths_of_uniform f1 f2 w (h1.1.trans h2.1.symm) h1.2 h2.2
    simpa using addWeighted_proj_left f1 f2 hF
  · intro cv f1 f2 h w h1 h2
    rw [blend_frames_same_shape cv f1 f2 h w h1 h2 1]
    have hF := rowLengths_of_uniform f1 f2 w (h1.1.trans h2.1.symm) h1.2 h2.2
    simpa using addWeighted_proj_right f1 f2 hF

/-- C6 witness: concrete 2×2 frames and budget 2. -/
theorem c6_witness :
    (1 < 2 ∧ uniformShape frameA 2 2 ∧ uniformShape frameB 2 2) ∧
    (crossfade_transition cvId 2 [frameA, frameA] [frameB, frameB]).1[1]? =
      some (blend_frames cvId frameA frameB ((1 : ℚ) / (2 : ℚ))) ∧
    blend_frames cvId frameA frameB 0 = frameA ∧
    blend_frames cvId frameA frameB 1 = frameB :=
  ⟨⟨by decide, by decide, by decide⟩,
    c6_crossfade_blend_lerp.1 cvId 2 [frameA, frameA] [frameB, frameB] 1 frameA frameB
      (by decide) (by decide) (by decide),
    c6_crossfade_blend_lerp.2.2.1 cvId frameA frameB 2 2 (by decide) (by decide),
    c6_crossfade_blend_lerp.2.2.2 cvId frameA frameB 2 2 (by decide) (by decide)⟩

theorem crossfade_go_length_le (cv : CvResize) (b : Nat) :
    ∀ (fuel i : Nat) (cap1 cap2 : List Frame) (last : Option Frame),
      (crossfade_go cv b i fuel cap1 cap2 last).1.length ≤ fuel := by
  intro fuel
  induction fuel with
  | zero => intro i cap1 cap2 last; simp [crossfade_go]
  | succ fuel ih =>
    intro i cap1 cap2 last
    cases cap1 with
    | nil => cases cap2 <;> simp [crossfade_go]
    | cons f1 c1 =>
      cases cap2 with
      | nil => simp [crossfade_go]
      | cons f2 c2 =>
        simp only [crossfade_go, List.length_cons]
        have := ih (i + 1) c1 c2 (some f2)
        omega

theorem crossfade_go_length_exact (cv : CvResize) (b : Nat) :
    ∀ (cap1 : List Frame) (fuel i : Nat) (cap2 : List Frame) (last : Option Frame),
      cap1.length < fuel → cap1.length < cap2.length →
      (crossfade_go cv b i fuel cap1 cap2 last).1.length = cap1.length := by
  intro cap1
  induction cap1 with
  | nil =>
    intro fuel i cap2 last hf hc
    obtain ⟨fuel, rfl⟩ : ∃ m, fuel = m + 1 := ⟨fuel - 1, by omega⟩
    cases cap2 with
    | nil => simp at hc
    | cons f2 c2 => simp [crossfade_go]
  | cons f1 c1 ih =>
    intro fuel i cap2 last hf hc
    obtain ⟨fuel, rfl⟩ : ∃ m, fuel = m + 1 := ⟨fuel - 1, by omega⟩
    cases cap2 with
    | nil => simp at hc
    | cons f2 c2 =>
      simp only [crossfade_go, List.length_cons]
      simp only [List.length_cons] at hf hc
      rw [ih fuel (i + 1) c2 (some f2) (by omega) (by omega)]

theorem wipe_go_length_le (cv : CvResize) (dims : Nat × Nat) (dir : Dir) (b : Nat) :
    ∀ (fuel i : Nat) (cap1 cap2 : List Frame) (last : Option Frame),
      (wipe_go cv dims dir b i fuel cap1 cap2 last).1.length ≤ fuel := by
  intro fuel
  induction fuel with
  | zero => intro i cap1 cap2 last; simp [wipe_go]
  | succ fuel ih =>
    intro i cap1 cap2 last
    cases cap1 with
    | nil => cases cap2 <;> simp [wipe_go]
    | cons f1 c1 =>
      cases cap2 with
      | nil => simp [wipe_go]
      | cons f2 c2 =>
        simp only [wipe_go, List.length_cons]
        have := ih (i + 1) c1 c2
        have h2 := this (some (if frameShape (resize_frame cv f2 dims) ≠
          frameShape (resize_frame cv f1 dims) then
            cv (resize_frame cv f2 dims) ((frameShape (resize_frame cv f1 dims)).2,
              (frameShape (resize_frame cv f1 dims)).1)
          else resize_frame cv f2 dims))
        omega

theorem wipe_go_length_exact (cv : CvResize) (dims : Nat × Nat) (dir : Dir) (b : Nat) :
    ∀ (cap1 : List Frame) (fuel i : Nat) (cap2 : List Frame) (last : Option Frame),
      cap1.length < fuel → cap1.length < cap2.length →
      (wipe_go cv dims dir b i fuel cap1 cap2 last).1.length = cap1.length := by
  intro cap1
  induction cap1 with
  | nil =>
    intro fuel i cap2 last hf hc
    obtain ⟨fuel, rfl⟩ : ∃ m, fuel = m + 1 := ⟨fuel - 1, by omega⟩
    cases cap2 with
    | nil => simp at hc
    | cons f2 c2 => simp [wipe_go]
  | cons f1 c1 ih =>
    intro fuel i cap2 last hf hc
    obtain ⟨fuel, rfl⟩ : ∃ m, fuel = m + 1 := ⟨fuel - 1, by omega⟩
    cases cap2 with
    | nil => simp at hc
    | cons f2 c2 =>
      simp only [wipe_go, List.length_cons]
      simp only [List.length_cons] at hf hc
      rw [ih fuel (i + 1) c2 _ (by omega) (by omega)]

/-- C3 counterexample: with budget 15, an outgoing capture holding exactly
one remaining frame (fewer than 15) and a fresh 16-frame incoming capture,
the crossfade emits one composite frame — not zero as the claim states. -/
theorem c3_counterexample :
    (crossfade_transition cvId 15 [frameA] (List.replicate 16 frameB)).1.length = 1 := by
  decide

/-- C3 (amended).  For every transition invocation with budget 15 (crossfade
or wipe): at most 15 composite frames are emitted before the engine state
becomes `Playing`; and if the outgoing source has `k < 15` frames remaining
at enqueue time (with the incoming source longer), exactly `k` composite
frames are emitted — the transition silently degrades to fewer frames,
degenerating to a direct cut only when `k = 0`. -/
theorem c3_budget_and_degrade (cv : CvResize) (dims : Nat × Nat) (dir : Dir)
    (cap1 cap2 : List Frame) :
    (crossfade_transition cv 15 cap1 cap2).1.length ≤ 15 ∧
    (wipe_transition cv 15 dims dir cap1 cap2).1.length ≤ 15 ∧
    (cap1.length < 15 → cap1.length < cap2.length →
      (crossfade_transition cv 15 cap1 cap2).1.length = cap1.length ∧
      (wipe_transition cv 15 dims dir cap1 cap2).1.length = cap1.length) := by
  refine ⟨crossfade_go_length_le cv 15 15 0 cap1 cap2 none,
    wipe_go_length_le cv dims dir 15 15 0 cap1 cap2 none, ?_⟩
  intro hk hc
  exact ⟨crossfade_go_length_exact cv 15 cap1 15 0 cap2 none hk hc,
    wipe_go_length_exact cv dims dir 15 cap1 15 0 cap2 none hk hc⟩

/-- C3 witness: one frame remaining in the outgoing capture gives exactly one
composite, for both crossfade and wipe. -/
theorem c3_witness :
    ([frameA] : List Frame).length < 15 ∧
    (crossfade_transition cvId 15 [frameA] (List.replicate 16 frameB)).1.length = 1 ∧
    (wipe_transition cvId 15 (2, 2) Dir.top [frameA] (List.replicate 16 frameB)).1.length = 1 := by
  refine ⟨by decide, ?_⟩
  have h := (c3_budget_and_degrade cvId (2, 2) Dir.top [frameA]
    (List.replicate 16 frameB)).2.2 (by decide) (by decide)
  simpa using h

theorem floorBoundary_le (d : Nat) (p : ℚ) (_hp0 : 0 ≤ p) (hp1 : p ≤ 1) :
    (⌊(d : ℚ) * p⌋).toNat ≤ d := by
  have h1 : (d : ℚ) * p ≤ (d : ℚ) := by
    calc (d : ℚ) * p ≤ (d : ℚ) * 1 := by
          exact mul_le_mul_of_nonneg_left hp1 (by positivity)
      _ = (d : ℚ) := mul_one _
  have h2 : ⌊(d : ℚ) * p⌋ ≤ ⌊(d : ℚ)⌋ := Int.floor_le_floor h1
  rw [Int.floor_natCast] at h2
  omega

/-- Reading position `j` of a slice-assigned composite
`l2[:k] ++ l1[k:]`: positions below `k` come from `l2`, the rest from `l1`. -/
theorem getElem?_overlay {α : Type} (l1 l2 : List α) (k j : Nat)
    (hk2 : k ≤ l2.length) :
    (l2.take k ++ l1.drop k)[j]? = if j < k then l2[j]? else l1[j]? := by
  by_cases hj : j < k
  · rw [if_pos hj, List.getElem?_append_left (by rw [List.length_take]; omega),
      List.getElem?_take_of_lt hj]
  · rw [if_neg hj, List.getElem?_append_right (by rw [List.length_take]; omega)]
    rw [List.length_take, List.getElem?_drop]
    congr 1
    omega

/-- C7.  For every pair of same-shaped resized frames, every progress value
in `[0, 1]` and every direction: the wipe boundary equals
`floor(dimension * progress)` for `top`/`left` and
`floor(dimension * (1 - progress))` for `bottom`/`right`
(`wipeBoundary`, the source's `wipe_line`/`wipe_col`); every pixel on the
already-swept side comes from the incoming frame and every other pixel from
the outgoing frame; and with direction `top`, progress 0 yields the outgoing
frame unchanged while progress 1 yields the incoming frame unchanged. -/
theorem c7_wipe_characterization :
    (∀ (dir : Dir) (rf1 rf2 : Frame) (h w : Nat) (p : ℚ) (j i : Nat),
      uniformShape rf1 h w → uniformShape rf2 h w → 0 ≤ p → p ≤ 1 →
      j < h → i < w →
      pixelAt (wipeComposite dir rf1 rf2 p) j i =
        (if wipeSwept dir h w p j i then pixelAt rf2 j i else pixelAt rf1 j i)) ∧
    (∀ (rf1 rf2 : Frame) (h w : Nat),
      uniformShape rf1 h w → uniformShape rf2 h w →
      wipeComposite Dir.top rf1 rf2 0 = rf1 ∧ wipeComposite Dir.top rf1 rf2 1 = rf2) := by
  constructor
  · intro dir rf1 rf2 h w p j i h1 h2 hp0 hp1 hj hi
    obtain ⟨hl1, hw1⟩ := h1
    obtain ⟨hl2, hw2⟩ := h2
    have hr1j : rf1[j]?.isSome := by
      rw [List.getElem?_eq_getElem (by omega)]; rfl
    have hr2j : rf2[j]?.isSome := by
      rw [List.getElem?_eq_getElem (by omega)]; rfl
    cases dir with
    | top =>
      have hble : (⌊(h : ℚ) * p⌋).toNat ≤ h := floorBoundary_le h p hp0 hp1
      simp only [wipeComposite, hl1, wipeSwept, wipeBoundary]
      by_cases h0 : 0 < (⌊(h : ℚ) * p⌋).toNat
      · rw [if_pos h0]
        unfold pixelAt
        rw [getElem?_overlay rf1 rf2 _ j (by omega)]
        by_cases hjb : j < (⌊(h : ℚ) * p⌋).toNat
        · rw [if_pos hjb, if_pos (by simpa using hjb)]
        · rw [if_neg hjb, if_neg (by simpa using hjb)]
      · rw [if_neg h0]
        have hjb : ¬ j < (⌊(h : ℚ) * p⌋).toNat := by omega
        rw [if_neg (by simpa using hjb)]
    | bottom =>
      have hble : (⌊(h : ℚ) * (1 - p)⌋).toNat ≤ h :=
        floorBoundary_le h (1 - p) (by linarith) (by linarith)
      simp only [wipeComposite, hl1, wipeSwept, wipeBoundary]
      by_cases hlt : (⌊(h : ℚ) * (1 - p)⌋).toNat < h
      · rw [if_pos hlt]
        unfold pixelAt
        rw [getElem?_overlay rf2 rf1 _ j (by omega)]
        by_cases hjb : j < (⌊(h : ℚ) * (1 - p)⌋).toNat
        · rw [if_pos hjb, if_neg (by simpa using hjb)]
        · rw [if_neg hjb, if_pos (by simpa using hjb)]
      · rw [if_neg hlt]
        have hjb : ¬ (⌊(h : ℚ) * (1 - p)⌋).toNat ≤ j := by omega
        rw [if_neg (by simpa using hjb)]
    | left =>
      have hneq : rf1 ≠ [] := by
        intro hnil; rw [hnil] at hl1; simp at hl1; omega
      have hhead : (rf1.headD []).length = w := by
        cases rf1 with
        | nil => exact absurd rfl hneq
        | cons r t => exact hw1 r (by simp)
      have hble : (⌊(w : ℚ) * p⌋).toNat ≤ w := floorBoundary_le w p hp0 hp1
      simp only [wipeComposite, hhead, wipeSwept, wipeBoundary]
      obtain ⟨r1, hr1⟩ := Option.isSome_iff_exists.mp hr1j
      obtain ⟨r2, hr2⟩ := Option.isSome_iff_exists.mp hr2j
      have hlen1 : r1.length = w := hw1 r1 (List.getElem?_mem hr1)
      have hlen2 : r2.length = w := hw2 r2 (List.getElem?_mem hr2)
      by_cases h0 : 0 < (⌊(w : ℚ) * p⌋).toNat
      · rw [if_pos h0]
        unfold pixelAt
        rw [List.getElem?_zipWith, hr1, hr2]
        simp only [Option.some_bind]
        rw [getElem?_overlay r1 r2 _ i (by omega)]
        by_cases hib : i < (⌊(w : ℚ) * p⌋).toNat
        · rw [if_pos hib, if_pos (by simpa using hib)]
        · rw [if_neg hib, if_neg (by simpa using hib)]
      · rw [if_neg h0]
        have hib : ¬ i < (⌊(w : ℚ) * p⌋).toNat := by omega
        rw [if_neg (by simpa using hib)]
    | right =>
      have hneq : rf1 ≠ [] := by
        intro hnil; rw [hnil] at hl1; simp at hl1; omega
      have hhead : (rf1.headD []).length = w := by
        cases rf1 with
        | nil => exact absurd rfl hneq
        | cons r t => exact hw1 r (by simp)
      have hble : (⌊(w : ℚ) * (1 - p)⌋).toNat ≤ w :=
        floorBoundary_le w (1 - p) (by linarith) (by linarith)
      simp only [wipeComposite, hhead, wipeSwept, wipeBoundary]
      obtain ⟨r1, hr1⟩ := Option.isSome_iff_exists.mp hr1j
      obtain ⟨r2, hr2⟩ := Option.isSome_iff_exists.mp hr2j
      have hlen1 : r1.length = w := hw1 r1 (List.getElem?_mem hr1)
      have hlen2 : r2.length = w := hw2 r2 (List.getElem?_mem hr2)
      by_cases hlt : (⌊(w : ℚ) * (1 - p)⌋).toNat < w
      · rw [if_pos hlt]
        unfold pixelAt
        rw [List.getElem?_zipWith, hr1, hr2]
        simp only [Option.some_bind]
        rw [getElem?_overlay r2 r1 _ i (by omega)]
        by_cases hib : i < (⌊(w : ℚ) * (1 - p)⌋).toNat
        · rw [if_pos hib, if_neg (by simpa using hib)]
        · rw [if_neg hib, if_pos (by simpa using hib)]
      · rw [if_neg hlt]
        have hib : ¬ (⌊(w : ℚ) * (1 - p)⌋).toNat ≤ i := by omega
        rw [if_neg (by simpa using hib)]
  · intro rf1 rf2 h w h1 h2
    obtain ⟨hl1, hw1⟩ := h1
    obtain ⟨hl2, hw2⟩ := h2
    constructor
    · simp [wipeComposite]
    · simp only [wipeComposite, mul_one, Int.floor_natCast, Int.toNat_natCast]
      by_cases h0 : 0 < rf1.length
      · rw [if_pos h0]
        rw [List.take_of_length_le (by omega), List.drop_eq_nil_of_le (by omega)]
        simp
      · rw [if_neg h0]
        have : rf1 = [] := by
          cases rf1 with
          | nil => rfl
          | cons r t => simp at h0
        rw [this]
        have : rf2 = [] := by
          have : rf2.length = 0 := by omega
          exact List.length_eq_zero.mp this
        rw [this]

/-- C7 witness: concrete 2×2 frames, progress 1/2. -/
theorem c7_witness :
    (uniformShape frameA 2 2 ∧ uniformShape frameB 2 2 ∧
      (0 : ℚ) ≤ 1 / 2 ∧ (1 / 2 : ℚ) ≤ 1) ∧
    pixelAt (wipeComposite Dir.top frameA frameB (1 / 2)) 0 0 =
      (if wipeSwept Dir.top 2 2 (1 / 2) 0 0 then pixelAt frameB 0 0
       else pixelAt frameA 0 0) ∧
    wipeComposite Dir.top frameA frameB 0 = frameA ∧
    wipeComposite Dir.top frameA frameB 1 = frameB := by
  refine ⟨⟨by decide, by decide, by norm_num, by norm_num⟩, ?_, ?_⟩
  · exact c7_wipe_characterization.1 Dir.top frameA frameB 2 2 (1 / 2) 0 0
      (by decide) (by decide) (by norm_num) (by norm_num) (by decide) (by decide)
  · exact c7_wipe_characterization.2 frameA frameB 2 2 (by decide) (by decide)

/-- The cursor recorded with the `k`-th composite emitted by the scan loop is
`start + k * lines_per_frame`: the cursor advances by exactly
`max 1 (h / transition_frames)` rows per emitted frame. -/
theorem scan_go_cursor (cv : CvResize) (dims : Nat × Nat) (dir : Dir)
    (s h w tf : Nat) :
    ∀ (k fuel current : Nat) (cap1 cap2 : List Frame) (rf1 rf2 : Frame)
      (c : Nat) (f : Frame),
      (scan_go cv dims dir s h w tf fuel current cap1 cap2 rf1 rf2).1[k]? = some (c, f) →
      c = current + k * scan_lines_per_frame h tf := by
  intro k
  induction k with
  | zero =>
    intro fuel current cap1 cap2 rf1 rf2 c f hc
    cases fuel with
    | zero => simp [scan_go] at hc
    | succ fuel =>
      by_cases h0 : current < h
      · simp only [scan_go, if_pos h0, List.getElem?_cons_zero, Option.some.injEq,
          Prod.mk.injEq] at hc
        omega
      · simp only [scan_go, if_neg h0] at hc
        simp at hc
  | succ k ih =>
    intro fuel current cap1 cap2 rf1 rf2 c f hc
    cases fuel with
    | zero => simp [scan_go] at hc
    | succ fuel =>
      by_cases h0 : current < h
      · simp only [scan_go, if_pos h0, List.getElem?_cons_succ] at hc
        have h3 := ih fuel (current + scan_lines_per_frame h tf) _ _ _ _ c f hc
        rw [h3]
        ring
      · simp only [scan_go, if_neg h0] at hc
        simp at hc

/-- Row-level characterization of the scan composite (direction top), away
from the bottom edge: rows the replacement boundary has passed are drawn
entirely from the incoming frame, the 2-row band immediately ahead of the
boundary is the 50/50 brightness blend with additive boost, and all rows
beyond the band are drawn from the outgoing frame. -/
theorem scanCompositeTop_rows (rf1 rf2 : Frame) (h w cur s j : Nat)
    (h1 : uniformShape rf1 h w) (h2 : uniformShape rf2 h w)
    (hband : min (cur + s) h + 1 < h) (hj : j < h) :
    (scanCompositeTop rf1 rf2 cur s)[j]? =
      (if j < min (cur + s) h then rf2[j]?
       else if j < min (cur + s) h + 2 then
        some (brightRow (rf1.getD j []) (rf2.getD j []))
       else rf1[j]?) := by
  obtain ⟨hl1, hw1⟩ := h1
  obtain ⟨hl2, hw2⟩ := h2
  subst hl1
  unfold scanCompositeTop blendScanRow
  set endl := min (cur + s) rf1.length with hendl
  have hend_lt : endl + 1 < rf1.length := hband
  have hcomp_get : ∀ jj, (rf2.take endl ++ rf1.drop endl)[jj]? =
      if jj < endl then rf2[jj]? else rf1[jj]? :=
    fun jj => getElem?_overlay rf1 rf2 endl jj (by omega)
  have hcomp_len : (rf2.take endl ++ rf1.drop endl).length = rf1.length := by
    rw [List.length_append, List.length_take, List.length_drop]
    omega
  have hm1 : min endl (rf1.length - 1) = endl := by omega
  have hm2 : min (endl + 1) (rf1.length - 1) = endl + 1 := by omega
  rw [if_pos (by omega : endl < rf1.length), hm1, hm2]
  have hgetD_endl : (rf2.take endl ++ rf1.drop endl).getD endl [] =
      rf1.getD endl [] := by
    simp only [List.getD_eq_getElem?_getD]
    rw [hcomp_get endl, if_neg (by omega)]
  rw [hgetD_endl]
  simp only [← hendl]
  have hset_getD : ∀ x : Row,
      ((rf2.take endl ++ rf1.drop endl).set endl x).getD (endl + 1) [] =
        rf1.getD (endl + 1) [] := by
    intro x
    simp only [List.getD_eq_getElem?_getD]
    rw [List.getElem?_set_ne (by omega), hcomp_get (endl + 1), if_neg (by omega)]
  rw [hset_getD]
  rcases Nat.lt_or_ge j endl with hcase | hcase
  · rw [if_pos hcase, List.getElem?_set_ne (by omega), List.getElem?_set_ne (by omega),
      hcomp_get j, if_pos hcase]
  · rcases Nat.lt_or_ge j (endl + 2) with hc2 | hc2
    · rw [if_neg (by omega), if_pos hc2]
      have hj2 : j = endl ∨ j = endl + 1 := by omega
      rcases hj2 with rfl | rfl
      · rw [List.getElem?_set_ne (by omega),
          List.getElem?_set_self (by rw [hcomp_len]; omega)]
      · rw [List.getElem?_set_self (by rw [List.length_set, hcomp_len]; omega)]
    · rw [if_neg (by omega), if_neg (by omega), List.getElem?_set_ne (by omega),
        List.getElem?_set_ne (by omega), hcomp_get j, if_neg (by omega)]

/-- C4 counterexample: same captures, same frames, same scan speed — only the
transition budget differs (4 vs 2 on a 4-row frame), yet the scan cursor
advances by 1 row per emitted frame in the first run and by 2 rows per
emitted frame in the second: the cursor speed depends on the nominal budget. -/
theorem c4_counterexample :
    (scan_transition cvId 4 (1, 4) Dir.top 2 [frame41, frame41]
        [frame41, frame41]).1.map Prod.fst = [0, 1, 2, 3] ∧
    (scan_transition cvId 2 (1, 4) Dir.top 2 [frame41, frame41]
        [frame41, frame41]).1.map Prod.fst = [0, 2] := by
  decide

/-- C4 (amended).  In the scan transition (direction top): the scan cursor of
the `k`-th emitted frame is `start + k * max(1, floor(h / budget))` — the
per-frame advance `scan_lines_per_frame` is determined by the frame height
and the nominal transition budget, not independent of it; the replaced region
extends `scan_speed` rows beyond the cursor; and, away from the bottom edge,
rows before the replacement boundary are drawn entirely from the incoming
frame, exactly the 2 rows immediately ahead of the boundary carry the 50/50
blend with the +50 additive brightness boost, and every row beyond the band
is drawn from the outgoing frame (no blended pixels outside the band). -/
theorem c4_scan_amended :
    (∀ (cv : CvResize) (dims : Nat × Nat) (dir : Dir) (s h w tf fuel current : Nat)
        (cap1 cap2 : List Frame) (rf1 rf2 : Frame) (k c : Nat) (f : Frame),
      (scan_go cv dims dir s h w tf fuel current cap1 cap2 rf1 rf2).1[k]? = some (c, f) →
      c = current + k * scan_lines_per_frame h tf) ∧
    (∀ (rf1 rf2 : Frame) (h w cur s j : Nat),
      uniformShape rf1 h w → uniformShape rf2 h w →
      min (cur + s) h + 1 < h → j < h →
      (scanCompositeTop rf1 rf2 cur s)[j]? =
        (if j < min (cur + s) h then rf2[j]?
         else if j < min (cur + s) h + 2 then
          some (brightRow (rf1.getD j []) (rf2.getD j []))
         else rf1[j]?)) := by
  constructor
  · intro cv dims dir s h w tf fuel current cap1 cap2 rf1 rf2 k c f hc
    exact scan_go_cursor cv dims dir s h w tf k fuel current cap1 cap2 rf1 rf2 c f hc
  · intro rf1 rf2 h w cur s j h1 h2 hband hj
    exact scanCompositeTop_rows rf1 rf2 h w cur s j h1 h2 hband hj

/-- C4 witness: a 4-row frame, budget 4, scan speed 2. -/
theorem c4_witness :
    (scan_go cvId (1, 4) Dir.top 2 4 1 4 4 0 [] [] frame41 frame41).1[3]? =
      some (3, scanCompositeTop frame41 frame41 3 2) ∧
    (3 : Nat) = 0 + 3 * scan_lines_per_frame 4 4 ∧
    (uniformShape frame41 4 1 ∧ min (0 + 2) 4 + 1 < 4) ∧
    (scanCompositeTop frame41 frame41 0 2)[0]? =
      (if 0 < min (0 + 2) 4 then (frame41 : Frame)[0]?
       else if 0 < min (0 + 2) 4 + 2 then
        some (brightRow (frame41.getD 0 []) (frame41.getD 0 []))
       else (frame41 : Frame)[0]?) := by
  refine ⟨by decide, ?_, ⟨by decide, by decide⟩, ?_⟩
  · exact c4_scan_amended.1 cvId (1, 4) Dir.top 2 4 1 4 4 0 [] [] frame41 frame41 3 3
      (scanCompositeTop frame41 frame41 3 2) (by decide)
  · exact c4_scan_amended.2 frame41 frame41 4 1 0 2 0 (by decide) (by decide)
      (by decide) (by decide)

theorem convert_eq (lookup : ℚ → Char) (frame : Frame) (cols : Nat) :
    convert_frame_pixels_to_ascii lookup frame cols false =
      ((frame.take (frame.length - 1)).map (fun row =>
        List.flatten ((row.take (min cols ((frame.headD []).length * 2) / 2)).map
          (pixel_to_ascii lookup)) ++
        List.replicate (cols - min cols ((frame.headD []).length * 2) / 2 * 2) ' ')).flatten
      ++ ['\r', '\n'] := rfl

theorem flatten_p2a_length (lookup : ℚ → Char) (l : List ℚ) :
    (List.flatten (l.map (pixel_to_ascii lookup))).length = 2 * l.length := by
  induction l with
  | nil => simp
  | cons a t ih =>
    simp only [List.map_cons, List.flatten_cons, List.length_append, ih, pixel_to_ascii,
      List.length_cons, List.length_nil]
    omega

/-- C8.  For every frame of height `h` and every target column count `cols`
(no-explicit-line-breaks mode): the text produced by
`convert_frame_pixels_to_ascii` consists of exactly `h - 1` rows, each row's
character count (two characters per sampled pixel) plus its space padding
equals `cols` exactly, and the whole block is terminated by a single
carriage-return + line-feed.  The two-character glyph width of the
out-of-`src` `image_processor.pixel_to_ascii` is modelled from the spec. -/
theorem c8_ascii_block (lookup : ℚ → Char) (frame : Frame) (cols h w : Nat)
    (hh : frame.length = h) (hw : ∀ r ∈ frame, r.length = w) :
    ∃ rows : List (List Char),
      convert_frame_pixels_to_ascii lookup frame cols false =
        rows.flatten ++ ['\r', '\n'] ∧
      rows.length = h - 1 ∧
      ∀ r ∈ rows, r.length = cols := by
  subst hh
  refine ⟨_, convert_eq lookup frame cols, ?_, ?_⟩
  · rw [List.length_map, List.length_take]
    omega
  · intro r hr
    obtain ⟨row, hrow_mem, rfl⟩ := List.mem_map.mp hr
    have hrow_in : row ∈ frame := List.mem_of_mem_take hrow_mem
    have hrl : row.length = w := hw row hrow_in
    have hhead : (frame.headD []).length = w := by
      cases frame with
      | nil => simp at hrow_in
      | cons r0 t => exact hw r0 (by simp)
    rw [List.length_append, List.length_replicate, flatten_p2a_length]
    rw [List.length_take, hrl, hhead]
    have h2w : w * 2 / 2 = w := Nat.mul_div_cancel w (by norm_num)
    have hpw_le_w : min cols (w * 2) / 2 ≤ w := by
      calc min cols (w * 2) / 2 ≤ w * 2 / 2 := Nat.div_le_div_right (min_le_right _ _)
        _ = w := h2w
    have h1 : min cols (w * 2) / 2 ≤ cols / 2 := Nat.div_le_div_right (min_le_left _ _)
    have h2 : cols / 2 * 2 ≤ cols := Nat.div_mul_le_self _ _
    omega

/-- C8 witness: a 2×2 frame rendered at 5 columns (one row of 4 glyph
characters plus 1 space of padding). -/
theorem c8_witness :
    (([[1, 2], [3, 4]] : Frame).length = 2 ∧
      ∀ r ∈ ([[1, 2], [3, 4]] : Frame), r.length = 2) ∧
    ∃ rows : List (List Char),
      convert_frame_pixels_to_ascii (fun _ => 'x') [[1, 2], [3, 4]] 5 false =
        rows.flatten ++ ['\r', '\n'] ∧
      rows.length = 2 - 1 ∧
      ∀ r ∈ rows, r.length = 5 :=
  ⟨⟨rfl, by decide⟩,
    c8_ascii_block (fun _ => 'x') [[1, 2], [3, 4]] 5 2 2 rfl (by decide)⟩
